import Mathlib

/-!
Verification of the pendant Rojo project tree classifier, path
consolidator and ignore filter.

The definitions below are a shallow embedding of the TypeScript source:

* `consolidatePaths` and `consolidateVendorPaths` from
  `src/functions/smart-initialize-async.ts`;
* `collectIntoRuntimeMap`, the classification core of
  `collectFromConfigurationAsync` and `extractPathsFromEntry` from
  `src/utilities/rojo-project-utilities.ts`;
* `processEntry` (the classifier inside `analyzeRojoProject`) from
  `src/functions/smart-initialize-async.ts`;
* `createSimpleIgnoreFilter` and the line processing of
  `parseGitignoreAsync` from `src/utilities/gitignore-utilities.ts`.

JavaScript strings are modelled as `List Char` (the `Str` abbreviation;
`str` converts a Lean string literal), so that every string operation is
a structural recursion the kernel can evaluate.  Objects holding tree
children become association lists `List (Str × Entry)`; the reserved
keys filtered by `isRojoTreeEntry` (`$className`,
`$ignoreUnknownInstances`, `$path`, `$properties`) are record fields of
`Entry`, never children.  A `Set<string>` becomes a `List Str` queried
by membership, and the insertion-ordered `Map` of vendor groups becomes
an association list whose keys keep first-encounter order.
-/

namespace Pendant

/-- JavaScript strings, modelled as lists of characters. -/
abbrev Str := List Char

/-- Converts a Lean string literal to the `Str` model. -/
def str (s : String) : Str := s.data

/-- `isPre p s` is true when `p` is a prefix of `s`
(the model of `String.prototype.startsWith`). -/
def isPre : Str → Str → Bool
  | [], _ => true
  | _ :: _, [] => false
  | p :: ps, c :: cs => p == c && isPre ps cs

/-- `startsWithS s p`: `s.startsWith(p)` in JavaScript. -/
def startsWithS (s p : Str) : Bool := isPre p s

/-- `endsWithS s p`: `s.endsWith(p)` in JavaScript. -/
def endsWithS (s p : Str) : Bool := isPre p.reverse s.reverse

/-- `String.prototype.split` with a single-character separator. -/
def splitOnChar (sep : Char) : Str → List Str
  | [] => [[]]
  | c :: rest =>
    let r := splitOnChar sep rest
    if c == sep then [] :: r
    else
      match r with
      | h :: t => (c :: h) :: t
      | [] => [[c]]

/-- The JavaScript whitespace test used by `String.prototype.trim`. -/
def isWsChar (c : Char) : Bool :=
  c == ' ' || c == '\t' || c == '\n' || c == '\r' || c == '\x0b' || c == '\x0c'

/-- `String.prototype.trim`: removes leading and trailing whitespace. -/
def trimStr (s : Str) : Str :=
  ((s.dropWhile isWsChar).reverse.dropWhile isWsChar).reverse

/-- Fuel-bounded leftmost non-overlapping replacement; the fuel only
guards termination and `replaceAll` always supplies enough of it, since
every step consumes at least one character of the subject. -/
def replaceAllAux : Nat → Str → Str → Str → Str
  | 0, s, _, _ => s
  | fuel + 1, s, pat, rep =>
    match s with
    | [] => []
    | c :: rest =>
      if pat ≠ [] && isPre pat s then rep ++ replaceAllAux fuel (s.drop pat.length) pat rep
      else c :: replaceAllAux fuel rest pat rep

/-- `String.prototype.replace` with a global literal pattern: replaces
every non-overlapping occurrence of `pat`, scanning left to right. -/
def replaceAll (s pat rep : Str) : Str :=
  replaceAllAux s.length s pat rep

/-! ## Runtime contexts and static service metadata -/

/-- Runtime contexts, from `meta/runtime-context.ts`. -/
inductive RuntimeContext where
  | Client
  | Server
  | Shared
  | Testing
  | Unknown
deriving DecidableEq, Repr

/-- A node of a Rojo project tree (`RojoTreeEntry` in
`utilities/rojo-project-utilities.ts`): optional `$className`, optional
`$path`, and the named child entries.  Children keys are the
non-reserved keys whose values are objects, which is exactly what
`isRojoTreeEntry` admits during iteration. -/
inductive Entry where
  | mk (className : Option Str) (path : Option Str)
       (children : List (Str × Entry))
deriving Repr

/-- The `$className` field of an entry. -/
def Entry.className : Entry → Option Str
  | .mk c _ _ => c

/-- The `$path` field of an entry. -/
def Entry.path : Entry → Option Str
  | .mk _ p _ => p

/-- The named child entries of an entry. -/
def Entry.children : Entry → List (Str × Entry)
  | .mk _ _ cs => cs

/-- `RobloxServiceMeta` from `meta/roblox-service-meta.ts`: the static
table mapping each known service class name to its runtime context.
Returns `none` for names that are not known services, modelling the
`isRobloxService` and `in RobloxServiceMeta` checks. -/
def robloxServiceContext (name : Str) : Option RuntimeContext :=
  if name = str "Chat" then some .Shared
  else if name = str "HapticService" then some .Shared
  else if name = str "Lighting" then some .Shared
  else if name = str "LocalizationService" then some .Shared
  else if name = str "Players" then some .Shared
  else if name = str "ReplicatedFirst" then some .Client
  else if name = str "ReplicatedStorage" then some .Shared
  else if name = str "RunService" then some .Shared
  else if name = str "ServerScriptService" then some .Server
  else if name = str "ServerStorage" then some .Server
  else if name = str "SoundService" then some .Shared
  else if name = str "StarterGui" then some .Client
  else if name = str "StarterPack" then some .Shared
  else if name = str "StarterPlayer" then some .Shared
  else if name = str "TestService" then some .Testing
  else if name = str "TextChatService" then some .Shared
  else if name = str "Workspace" then some .Shared
  else none

/-- `getRuntimeContextFromKey` from `utilities/rojo-project-utilities.ts`:
scans `RuntimeContextMeta` in declaration order (Client, Server, Shared,
Testing, Unknown) and returns the first context whose `keyName` equals
the key.  `Unknown` also has `keyName` `"shared"`, but `Shared` comes
first, so no key ever resolves to `Unknown`. -/
def getRuntimeContextFromKey (key : Str) : Option RuntimeContext :=
  if key = str "client" then some .Client
  else if key = str "server" then some .Server
  else if key = str "shared" then some .Shared
  else if key = str "testing" then some .Testing
  else none

/-! ## Path consolidation (`smart-initialize-async.ts`) -/

/-- `path.replace(GLOB_SUFFIX_PATTERN, "")` with
`GLOB_SUFFIX_PATTERN = /\/\*\*$/`: removes a trailing `/**` if present. -/
def stripGlob (s : Str) : Str :=
  if endsWithS s (str "/**") then s.take (s.length - 3) else s

/-- The redundancy test inside `consolidatePaths`: `currentPath` is
redundant with respect to `existingPath` when, after stripping the glob
suffix, the current base equals the existing base or extends it past a
path separator. -/
def dominates (existingPath currentPath : Str) : Bool :=
  startsWithS (stripGlob currentPath) (stripGlob existingPath ++ str "/") ||
    stripGlob currentPath == stripGlob existingPath

/-- One step of the stable insertion modelling
`[...paths].sort((a, b) => a.length - b.length)`: `x` is placed after
every already-placed element whose length does not exceed its own, which
is exactly the stable order by length (JavaScript sort is stable). -/
def insLen (acc : List Str) (x : Str) : List Str :=
  match acc with
  | [] => [x]
  | y :: ys => if y.length ≤ x.length then y :: insLen ys x else x :: y :: ys

/-- Stable sort by string length, modelling the JavaScript
`sort((a, b) => a.length - b.length)`. -/
def sortLen (l : List Str) : List Str :=
  l.foldl insLen []

/-- The prefix-domination loop of `consolidatePaths`: keep each path of
the (sorted) list unless some already-kept path dominates it. -/
def dominationAux (consolidated : List Str) : List Str → List Str
  | [] => consolidated
  | currentPath :: rest =>
    if consolidated.any (fun existingPath => dominates existingPath currentPath)
    then dominationAux consolidated rest
    else dominationAux (consolidated ++ [currentPath]) rest

/-- The whole prefix-domination pass, started with no kept paths. -/
def dominationPass (sortedPaths : List Str) : List Str :=
  dominationAux [] sortedPaths

/-- Appends `v` to the group named `k`, creating the group at the end if
it does not exist: models `vendorGroups.get(groupKey)!.push(vendorPath)`
together with the insertion order of `Map` keys. -/
def addToGroup (gs : List (Str × List Str)) (k v : Str) :
    List (Str × List Str) :=
  match gs with
  | [] => [(k, [v])]
  | (k0, vs) :: rest =>
    if k0 = k then (k0, vs ++ [v]) :: rest else (k0, vs) :: addToGroup rest k v

/-- `consolidateVendorPaths` from `smart-initialize-async.ts`: separates
the paths beginning with `"Vendor/"`, groups them by the immediate child
segment under `Vendor` (a path whose stripped base splits into fewer
than two segments joins no group and is silently dropped), collapses
each group with more than one member to `Vendor/<sub>/**`, and returns
the non-vendor paths followed by the per-group results. -/
def consolidateVendorPaths (paths : List Str) : List Str :=
  let vendorPaths := paths.filter (fun p => startsWithS p (str "Vendor/"))
  let otherPaths := paths.filter (fun p => !startsWithS p (str "Vendor/"))
  let vendorGroups := vendorPaths.foldl
    (fun gs vendorPath =>
      match splitOnChar '/' (stripGlob vendorPath) with
      | _ :: vendorSubdir :: _ =>
        addToGroup gs (str "Vendor/" ++ vendorSubdir) vendorPath
      | _ => gs)
    []
  let consolidatedVendorPaths := vendorGroups.foldl
    (fun acc g =>
      if g.2.length > 1 then acc ++ [g.1 ++ str "/**"] else acc ++ g.2)
    []
  otherPaths ++ consolidatedVendorPaths

/-- `consolidatePaths` from `smart-initialize-async.ts`: lists of at
most one path are returned unchanged; otherwise the paths are sorted by
length, filtered by prefix domination, and handed to
`consolidateVendorPaths`. -/
def consolidatePaths (paths : List Str) : List Str :=
  if paths.length ≤ 1 then paths
  else consolidateVendorPaths (dominationPass (sortLen paths))

/-- A file is covered by a directory glob when it is the stripped base
itself or lies strictly beneath it; this is the "this directory and
everything beneath it" reading the spec gives the `/**` suffix. -/
def globCovers (glob file : Str) : Bool :=
  file == stripGlob glob || startsWithS file (stripGlob glob ++ str "/")

/-! ## Ignore filter (`gitignore-utilities.ts`) -/

/-- `isNotCommented` from `gitignore-utilities.ts`: keeps non-empty
lines that do not start with `#`. -/
def isNotCommented (line : Str) : Bool :=
  !line.isEmpty && !startsWithS line (str "#")

/-- The string branch of `IgnoreFilter.add`: splits on newlines, trims
each line and keeps the non-commented ones, appending them to the
stored pattern list.  Lines starting with `!` are NOT filtered here. -/
def addStringPatterns (patterns : List Str) (content : Str) : List Str :=
  patterns ++ ((splitOnChar '\n' content).map trimStr).filter isNotCommented

/-- The array branch of `IgnoreFilter.add`: appends the given patterns
verbatim. -/
def addArrayPatterns (patterns : List Str) (input : List Str) : List Str :=
  patterns ++ input

/-- The ignore filter built by `createIgnoreFilterAsync` from the text
of an ignore file: a fresh filter to which the whole content is added
through the string branch of `add`. -/
def buildIgnoreFilter (content : Str) : List Str :=
  addStringPatterns [] content

/-- `path.replace(RELATIVE_PATH_REGEX, "")` with pattern `/^\.\.\/+/g`:
anchored at the start, so at most one occurrence is removed — a leading
`..` followed by one or more slashes. -/
def stripLeadingRelative (s : Str) : Str :=
  match s with
  | '.' :: '.' :: '/' :: rest => rest.dropWhile (fun c => c == '/')
  | _ => s

/-- `replace(LEADING_SLASH_REGEX, "")` with pattern `/^\/+/`. -/
def stripLeadingSlashes (s : Str) : Str :=
  s.dropWhile (fun c => c == '/')

/-- The path normalization at the top of `ignores`. -/
def normalizePathForIgnore (path : Str) : Str :=
  stripLeadingSlashes (stripLeadingRelative path)

/-- The source text of the regular expression `ignores` builds for a
wildcard pattern: three sequential global replaces, `**` to `.*`, then
`*` to `[^/]*`, then `?` to `[^/]` (the later replaces also rewrite the
`*` introduced by the earlier ones, exactly as in JavaScript). -/
def regexSource (pattern : Str) : Str :=
  replaceAll (replaceAll (replaceAll pattern (str "**") (str ".*")) (str "*") (str "[^/]*"))
    (str "?") (str "[^/]")

/-- The atoms of the regular expressions `ignores` can build: the
wildcard replacements plus plain characters, where an unescaped `.`
coming from the original pattern is the usual any-character atom. -/
inductive RegexAtom where
  | anyStar
  | nonSlashStar
  | nonSlash
  | anyChar
  | lit (c : Char)
deriving DecidableEq, Repr

/-- Reads the regex source produced by `regexSource` back into atoms;
the longer metacharacter sequences take priority. -/
def readAtoms : Str → List RegexAtom
  | '[' :: '^' :: '/' :: ']' :: '*' :: rest => .nonSlashStar :: readAtoms rest
  | '[' :: '^' :: '/' :: ']' :: rest => .nonSlash :: readAtoms rest
  | '.' :: '*' :: rest => .anyStar :: readAtoms rest
  | '.' :: rest => .anyChar :: readAtoms rest
  | c :: rest => .lit c :: readAtoms rest
  | [] => []

/-- Fuel-bounded anchored regex matching (`new RegExp`, anchored with
`^...$`, then `.test(path)`).  Every recursive call consumes an atom or
a character, so the fuel `rmatch` supplies is always sufficient. -/
def rmatchAux : Nat → List RegexAtom → Str → Bool
  | 0, _, _ => false
  | _ + 1, [], s => s.isEmpty
  | fuel + 1, .lit c :: as, s =>
    match s with
    | [] => false
    | x :: xs => x == c && rmatchAux fuel as xs
  | fuel + 1, .anyChar :: as, s =>
    match s with
    | [] => false
    | _ :: xs => rmatchAux fuel as xs
  | fuel + 1, .nonSlash :: as, s =>
    match s with
    | [] => false
    | x :: xs => !(x == '/') && rmatchAux fuel as xs
  | fuel + 1, .anyStar :: as, s =>
    rmatchAux fuel as s ||
      (match s with
       | [] => false
       | _ :: xs => rmatchAux fuel (.anyStar :: as) xs)
  | fuel + 1, .nonSlashStar :: as, s =>
    rmatchAux fuel as s ||
      (match s with
       | [] => false
       | x :: xs => !(x == '/') && rmatchAux fuel (.nonSlashStar :: as) xs)

/-- Anchored match of an atom list against a whole string. -/
def rmatch (atoms : List RegexAtom) (s : Str) : Bool :=
  rmatchAux (atoms.length + s.length + 1) atoms s

/-- The per-pattern test inside `ignores` (the body of its loop), taking
the already-normalized path: a trailing-slash pattern matches the
directory itself and everything beneath it; a pattern containing `*` is
compiled to a regular expression; any other pattern matches exactly or
as a path prefix. -/
def patternIgnores (pattern normalizedPath : Str) : Bool :=
  let normalizedPattern := stripLeadingSlashes pattern
  if endsWithS normalizedPattern (str "/") then
    let directoryPattern := normalizedPattern.take (normalizedPattern.length - 1)
    normalizedPath == directoryPattern ||
      startsWithS normalizedPath (directoryPattern ++ str "/")
  else if normalizedPattern.contains '*' then
    rmatch (readAtoms (regexSource normalizedPattern)) normalizedPath
  else
    normalizedPath == normalizedPattern ||
      startsWithS normalizedPath (normalizedPattern ++ str "/")

/-- `IgnoreFilter.ignores` from `createSimpleIgnoreFilter`: normalizes
the path, then returns true as soon as some stored pattern matches. -/
def ignores (patterns : List Str) (path : Str) : Bool :=
  let normalizedPath := normalizePathForIgnore path
  patterns.any (fun pattern => patternIgnores pattern normalizedPath)

/-! ## Gitignore parsing for the analyzer invocation
(`parseGitignoreAsync`) -/

/-- The per-line processing of `parseGitignoreAsync`: empty lines,
comment lines and negation lines produce nothing; otherwise a leading
slash is removed and a trailing slash gets `**` appended. -/
def parseGitignoreLine (line : Str) : Option Str :=
  let trimmed := trimStr line
  if trimmed.isEmpty then none
  else if startsWithS trimmed (str "#") then none
  else if startsWithS trimmed (str "!") then none
  else
    let p1 := if startsWithS trimmed (str "/") then trimmed.drop 1 else trimmed
    let p2 := if endsWithS p1 (str "/") then p1 ++ str "**" else p1
    some p2

/-- The pure core of `parseGitignoreAsync`: processes the lines of the
file content in order, collecting the produced patterns. -/
def parseGitignoreCore (lines : List Str) : List Str :=
  lines.filterMap parseGitignoreLine

/-! ## Classification into runtime contexts
(`rojo-project-utilities.ts`) -/

/-- `RuntimeEntryMap`: one entry list per runtime context. -/
structure RuntimeEntryMap where
  client : List Entry
  server : List Entry
  shared : List Entry
  testing : List Entry
  unknown : List Entry
deriving Repr

/-- The freshly initialized map, all context lists empty. -/
def emptyRuntimeEntryMap : RuntimeEntryMap := ⟨[], [], [], [], []⟩

/-- The entry list of a given context. -/
def RuntimeEntryMap.get (m : RuntimeEntryMap) : RuntimeContext → List Entry
  | .Client => m.client
  | .Server => m.server
  | .Shared => m.shared
  | .Testing => m.testing
  | .Unknown => m.unknown

/-- `runtimeMap[context].push(entry)`. -/
def pushEntry (m : RuntimeEntryMap) (c : RuntimeContext) (e : Entry) : RuntimeEntryMap :=
  match c with
  | .Client => { m with client := m.client ++ [e] }
  | .Server => { m with server := m.server ++ [e] }
  | .Shared => { m with shared := m.shared ++ [e] }
  | .Testing => { m with testing := m.testing ++ [e] }
  | .Unknown => { m with unknown := m.unknown ++ [e] }

/-- `serviceName in tree` followed by `tree[serviceName]`, restricted by
`isRojoTreeEntry` to the child entries (tree object keys are unique,
and the reserved keys never hold entries). -/
def lookupEntry (tree : List (Str × Entry)) (name : Str) : Option Entry :=
  match tree with
  | [] => none
  | (k, e) :: rest => if k = name then some e else lookupEntry rest name

/-- Marks a matched entry as configured: adds its tree key and, when the
`$className` is a non-empty string, the class name as well
(`configuredServices.add`). -/
def addConfigured (cfg : List Str) (e : Entry) (name : Str) : List Str :=
  match e.className with
  | some c => if c ≠ [] then c :: name :: cfg else name :: cfg
  | none => name :: cfg

/-- The inner loop of the configuration-based classification of
`collectIntoRuntimeMap`: for every configured service name found in the
tree, pushes the entry into the resolved context and records the name
(and class name) as configured. -/
def configNames (tree : List (Str × Entry)) (rc : RuntimeContext) :
    List Str → RuntimeEntryMap × List Str → RuntimeEntryMap × List Str
  | [], st => st
  | n :: rest, st =>
    match lookupEntry tree n with
    | some e => configNames tree rc rest (pushEntry st.1 rc e, addConfigured st.2 e n)
    | none => configNames tree rc rest st

/-- The configuration-based classification of `collectIntoRuntimeMap`:
iterates the configuration `files` record; keys that resolve to no
runtime context are skipped with a warning. -/
def configurationPhase (tree : List (Str × Entry)) :
    List (Str × List Str) → RuntimeEntryMap × List Str → RuntimeEntryMap × List Str
  | [], st => st
  | (ck, names) :: rest, st =>
    match getRuntimeContextFromKey ck with
    | some rc => configurationPhase tree rest (configNames tree rc names st)
    | none => configurationPhase tree rest st

/-- The context, if any, the fallback loop assigns to an entry: a
non-empty `$className` that is a known service and not already
configured goes to the service metadata context; a non-empty unknown
or already-configured-by-class `$className` goes to `Unknown` unless the
class name itself is configured; everything else gets no context. -/
def fallbackContext (cfg : List Str) (v : Entry) : Option RuntimeContext :=
  match v.className with
  | none => none
  | some c =>
    if c = [] then none
    else
      match robloxServiceContext c with
      | some rc => if cfg.contains c then none else some rc
      | none => if cfg.contains c then none else some .Unknown

/-- The fallback classification loop shared by `collectIntoRuntimeMap`
and `collectFromConfigurationAsync`: skips entries whose key was
configured, otherwise pushes by `fallbackContext`. -/
def fallbackPhase (cfg : List Str) :
    List (Str × Entry) → RuntimeEntryMap → RuntimeEntryMap
  | [], m => m
  | (k, v) :: rest, m =>
    if cfg.contains k then fallbackPhase cfg rest m
    else
      match fallbackContext cfg v with
      | some rc => fallbackPhase cfg rest (pushEntry m rc v)
      | none => fallbackPhase cfg rest m

/-- `collectIntoRuntimeMap` from `rojo-project-utilities.ts`:
configuration-based classification by service name, then the fallback
classification over the top-level tree entries. -/
def collectIntoRuntimeMap (tree : List (Str × Entry))
    (files : List (Str × List Str)) : RuntimeEntryMap :=
  let st := configurationPhase tree files (emptyRuntimeEntryMap, [])
  fallbackPhase st.2 tree st.1

/-- `extractPathsFromEntry` from `rojo-project-utilities.ts`: the
truthy `$path` of the entry, followed by the recursively extracted
paths of every child, in order. -/
def extractPathsFromEntry (e : Entry) : List Str :=
  match e with
  | .mk _ p cs =>
    (match p with
     | some q => if q ≠ [] then [q] else []
     | none => []) ++
    (cs.attach.map (fun x => extractPathsFromEntry x.1.2)).flatten
termination_by sizeOf e
decreasing_by
  have h1 := List.sizeOf_lt_of_mem x.2
  obtain ⟨⟨k0, c0⟩, hm⟩ := x
  simp at h1 ⊢
  omega

/-- The service-name matching loop of `collectFromConfigurationAsync`:
the first configuration context (in record order) whose pattern list
contains the tree key or the truthy class name. -/
def nameMatchContext (files : List (Str × List Str)) (k : Str) (cn : Option Str) :
    Option RuntimeContext :=
  match files with
  | [] => none
  | (ck, patterns) :: rest =>
    match getRuntimeContextFromKey ck with
    | none => nameMatchContext rest k cn
    | some rc =>
      if patterns.contains k ||
          (match cn with
           | some c => !c.isEmpty && patterns.contains c
           | none => false)
      then some rc
      else nameMatchContext rest k cn

/-- `pathMatchesPatternsGlob`: true when some pattern glob-matches the
path; the glob matcher itself (`matchesGlob` from `node:path`) is an
external collaborator and is passed in as the oracle `mg`. -/
def pathPatternsMatch (mg : Str → Str → Bool) (p : Str) (patterns : List Str) : Bool :=
  patterns.any (fun pattern => mg p pattern)

/-- The inner context loop of the path-based matching of
`collectFromConfigurationAsync` for one extracted path. -/
def firstPathContext (mg : Str → Str → Bool) (p : Str) :
    List (Str × List Str) → Option RuntimeContext
  | [] => none
  | (ck, patterns) :: rest =>
    match getRuntimeContextFromKey ck with
    | none => firstPathContext mg p rest
    | some rc =>
      if pathPatternsMatch mg p patterns then some rc
      else firstPathContext mg p rest

/-- The outer path loop of the path-based matching: the first extracted
path that matches some context wins. -/
def pathMatchContext (mg : Str → Str → Bool) (files : List (Str × List Str)) :
    List Str → Option RuntimeContext
  | [] => none
  | p :: rest =>
    match firstPathContext mg p files with
    | some rc => some rc
    | none => pathMatchContext mg files rest

/-- The matched context of one top-level pair in
`collectFromConfigurationAsync`: service-name matching first, then
path-based matching over the extracted paths. -/
def matchedContextOf (mg : Str → Str → Bool) (files : List (Str × List Str))
    (k : Str) (v : Entry) : Option RuntimeContext :=
  match nameMatchContext files k v.className with
  | some rc => some rc
  | none => pathMatchContext mg files (extractPathsFromEntry v)

/-- The configuration-based classification loop of
`collectFromConfigurationAsync` over the top-level pairs. -/
def configMatchPhase (mg : Str → Str → Bool) (files : List (Str × List Str)) :
    List (Str × Entry) → RuntimeEntryMap × List Str → RuntimeEntryMap × List Str
  | [], st => st
  | (k, v) :: rest, st =>
    match matchedContextOf mg files k v with
    | some rc => configMatchPhase mg files rest (pushEntry st.1 rc v, addConfigured st.2 v k)
    | none => configMatchPhase mg files rest st

/-- The pure classification core of `collectFromConfigurationAsync`
(the function also loads the project file; that I/O surrounds this
core): configuration matching by name or extracted path, then the same
fallback classification as `collectIntoRuntimeMap`. -/
def collectFromConfigurationCore (mg : Str → Str → Bool)
    (tree : List (Str × Entry)) (files : List (Str × List Str)) : RuntimeEntryMap :=
  let st := configMatchPhase mg files tree (emptyRuntimeEntryMap, [])
  fallbackPhase st.2 tree st.1

/-! ## The analyzer-side classifier (`analyzeRojoProject` and its inner
`processEntry` in `smart-initialize-async.ts`) -/

/-- `RuntimePathsMap`: the per-context glob lists `analyzeRojoProject`
accumulates (it has no unknown bucket; unclassified paths default to
shared). -/
structure RuntimePathsMap where
  client : List Str
  server : List Str
  shared : List Str
  testing : List Str
deriving Repr

/-- A truthy string lookup into `RobloxServiceMeta`, modelling
`name && name in RobloxServiceMeta` followed by the table access. -/
def optMeta : Option Str → Option RuntimeContext
  | some s => if s = [] then none else robloxServiceContext s
  | none => none

/-- The context resolution at the top of `processEntry`: the entry's
own truthy `$className` in the metadata table wins, else the entry's
key in the metadata table, else the inherited context. -/
def resolveCtx (cn pk : Option Str) (inherited : Option RuntimeContext) :
    Option RuntimeContext :=
  match optMeta cn with
  | some rc => some rc
  | none =>
    match optMeta pk with
    | some rc => some rc
    | none => inherited

/-- The `switch` of `processEntry`: pushes the glob into the bucket of
the resolved context; `Unknown` or no context defaults to shared. -/
def pushGlob (m : RuntimePathsMap) (rc : Option RuntimeContext) (glob : Str) :
    RuntimePathsMap :=
  match rc with
  | some .Client => { m with client := m.client ++ [glob] }
  | some .Server => { m with server := m.server ++ [glob] }
  | some .Shared => { m with shared := m.shared ++ [glob] }
  | some .Testing => { m with testing := m.testing ++ [glob] }
  | _ => { m with shared := m.shared ++ [glob] }

/-- The bucket of a context in the analyzer-side paths map; `Unknown`
reads the shared bucket, mirroring the default arm of the `switch`. -/
def contextBucket (m : RuntimePathsMap) : RuntimeContext → List Str
  | .Client => m.client
  | .Server => m.server
  | .Shared => m.shared
  | .Testing => m.testing
  | .Unknown => m.shared

/-- `processEntry` from `analyzeRojoProject`: resolves the runtime
context, pushes `$path/**` for a truthy `$path`, and recurses into the
children passing the resolved context down. -/
def processEntry (e : Entry) (parentKey : Option Str)
    (inherited : Option RuntimeContext) (acc : RuntimePathsMap) : RuntimePathsMap :=
  match e with
  | .mk cn p cs =>
    let rc := resolveCtx cn parentKey inherited
    let acc1 :=
      match p with
      | some q => if q ≠ [] then pushGlob acc rc (q ++ str "/**") else acc
      | none => acc
    cs.attach.foldl (fun a x => processEntry x.1.2 (some x.1.1) rc a) acc1
termination_by sizeOf e
decreasing_by
  have h1 := List.sizeOf_lt_of_mem x.2
  obtain ⟨⟨k0, c0⟩, hm⟩ := x
  simp at h1 ⊢
  omega

/-! ## Lemmas about the consolidator -/

/-- Sorted by length, the order the sorting pass establishes. -/
def lenLE (a b : Str) : Prop := a.length ≤ b.length

/-- Mutually non-dominating, the invariant of the kept-path list. -/
def noDom (a b : Str) : Prop := dominates a b = false

theorem mem_insLen {acc : List Str} {x z : Str} :
    z ∈ insLen acc x ↔ z = x ∨ z ∈ acc := by
  induction acc with
  | nil => simp [insLen]
  | cons y ys ih =>
    by_cases h : y.length ≤ x.length
    · simp only [insLen, if_pos h, List.mem_cons, ih]
      tauto
    · simp only [insLen, if_neg h, List.mem_cons]

theorem insLen_append {acc : List Str} {x : Str}
    (h : ∀ y ∈ acc, y.length ≤ x.length) : insLen acc x = acc ++ [x] := by
  induction acc with
  | nil => simp [insLen]
  | cons y ys ih =>
    have hy : y.length ≤ x.length := h y (by simp)
    simp only [insLen, if_pos hy, List.cons_append, List.cons.injEq, true_and]
    exact ih (fun z hz => h z (by simp [hz]))

theorem insLen_sorted {acc : List Str} {x : Str}
    (h : acc.Pairwise lenLE) : (insLen acc x).Pairwise lenLE := by
  induction acc with
  | nil => simp [insLen]
  | cons y ys ih =>
    rcases List.pairwise_cons.mp h with ⟨hy, hys⟩
    by_cases hle : y.length ≤ x.length
    · simp only [insLen, if_pos hle]
      refine List.pairwise_cons.mpr ⟨?_, ih hys⟩
      intro z hz
      rcases mem_insLen.mp hz with rfl | hz2
      · exact hle
      · exact hy z hz2
    · simp only [insLen, if_neg hle]
      refine List.pairwise_cons.mpr ⟨?_, h⟩
      intro z hz
      rcases List.mem_cons.mp hz with rfl | hz2
      · exact Nat.le_of_lt (Nat.lt_of_not_le hle)
      · exact Nat.le_trans (Nat.le_of_lt (Nat.lt_of_not_le hle)) (hy z hz2)

theorem foldl_insLen_sorted :
    ∀ (l : List Str) (acc : List Str), acc.Pairwise lenLE →
      (List.foldl insLen acc l).Pairwise lenLE
  | [], _, h => h
  | x :: xs, acc, h =>
    foldl_insLen_sorted xs (insLen acc x) (insLen_sorted h)

theorem mem_foldl_insLen :
    ∀ (l : List Str) (acc : List Str) (z : Str),
      z ∈ List.foldl insLen acc l → z ∈ acc ∨ z ∈ l
  | [], _, _, h => Or.inl h
  | x :: xs, acc, z, h => by
    rcases mem_foldl_insLen xs (insLen acc x) z h with h2 | h2
    · rcases mem_insLen.mp h2 with rfl | h3
      · exact Or.inr (by simp)
      · exact Or.inl h3
    · exact Or.inr (by simp [h2])

theorem sortLen_sorted (l : List Str) : (sortLen l).Pairwise lenLE :=
  foldl_insLen_sorted l [] (by simp)

theorem mem_sortLen {l : List Str} {z : Str} (h : z ∈ sortLen l) : z ∈ l := by
  rcases mem_foldl_insLen l [] z h with h2 | h2
  · simp at h2
  · exact h2

theorem foldl_insLen_of_sorted :
    ∀ (l : List Str) (acc : List Str), (acc ++ l).Pairwise lenLE →
      List.foldl insLen acc l = acc ++ l
  | [], acc, _ => by simp
  | x :: xs, acc, h => by
    have hstep : insLen acc x = acc ++ [x] := by
      refine insLen_append (fun y hy => ?_)
      have := (List.pairwise_append.mp h).2.2
      exact this y hy x (by simp)
    have hrest : ((acc ++ [x]) ++ xs).Pairwise lenLE := by
      rw [List.append_assoc]
      simpa using h
    calc List.foldl insLen acc (x :: xs)
        = List.foldl insLen (insLen acc x) xs := rfl
      _ = List.foldl insLen (acc ++ [x]) xs := by rw [hstep]
      _ = (acc ++ [x]) ++ xs := foldl_insLen_of_sorted xs (acc ++ [x]) hrest
      _ = acc ++ (x :: xs) := by simp

theorem sortLen_of_sorted {l : List Str} (h : l.Pairwise lenLE) : sortLen l = l := by
  have := foldl_insLen_of_sorted l [] (by simpa using h)
  simpa [sortLen] using this

theorem dominationAux_spec :
    ∀ (l : List Str) (acc : List Str),
      ∃ s, dominationAux acc l = acc ++ s ∧ s.Sublist l
  | [], acc => ⟨[], by simp [dominationAux]⟩
  | p :: rest, acc => by
    by_cases h : acc.any (fun q => dominates q p)
    · rcases dominationAux_spec rest acc with ⟨s, hs, hsub⟩
      exact ⟨s, by simp [dominationAux, h, hs], hsub.cons p⟩
    · have h2 : acc.any (fun q => dominates q p) = false := by simpa using h
      rcases dominationAux_spec rest (acc ++ [p]) with ⟨s, hs, hsub⟩
      refine ⟨p :: s, ?_, hsub.cons₂ p⟩
      simp only [dominationAux, h2, Bool.false_eq_true, if_false]
      simpa using hs

theorem dominationAux_pairwise :
    ∀ (l : List Str) (acc : List Str), acc.Pairwise noDom →
      (dominationAux acc l).Pairwise noDom
  | [], _, h => h
  | p :: rest, acc, h => by
    by_cases hany : acc.any (fun q => dominates q p)
    · simpa [dominationAux, hany] using dominationAux_pairwise rest acc h
    · have h2 : acc.any (fun q => dominates q p) = false := by simpa using hany
      have hacc : (acc ++ [p]).Pairwise noDom := by
        refine List.pairwise_append.mpr ⟨h, by simp, ?_⟩
        intro a ha b hb
        rcases List.mem_singleton.mp hb with rfl
        have h3 := List.any_eq_false.mp h2 a ha
        simpa [noDom] using h3
      simpa [dominationAux, h2] using dominationAux_pairwise rest (acc ++ [p]) hacc

theorem dominationAux_stable :
    ∀ (l : List Str) (acc : List Str),
      (∀ q ∈ acc, ∀ p ∈ l, dominates q p = false) → l.Pairwise noDom →
      dominationAux acc l = acc ++ l
  | [], acc, _, _ => by simp [dominationAux]
  | p :: rest, acc, hcross, hpw => by
    have hany : acc.any (fun q => dominates q p) = false := by
      simp only [List.any_eq_false]
      intro q hq
      simp [hcross q hq p (by simp)]
    rcases List.pairwise_cons.mp hpw with ⟨hp, hrest⟩
    have hcross2 : ∀ q ∈ acc ++ [p], ∀ x ∈ rest, dominates q x = false := by
      intro q hq x hx
      rcases List.mem_append.mp hq with hq2 | hq2
      · exact hcross q hq2 x (by simp [hx])
      · rcases List.mem_singleton.mp hq2 with rfl
        exact hp x hx
    calc dominationAux acc (p :: rest)
        = dominationAux (acc ++ [p]) rest := by simp [dominationAux, hany]
      _ = (acc ++ [p]) ++ rest := dominationAux_stable rest (acc ++ [p]) hcross2 hrest
      _ = acc ++ (p :: rest) := by simp

theorem consolidateVendorPaths_of_vendor_free {l : List Str}
    (h : ∀ p ∈ l, startsWithS p (str "Vendor/") = false) :
    consolidateVendorPaths l = l := by
  have hv : l.filter (fun p => startsWithS p (str "Vendor/")) = [] := by
    simp only [List.filter_eq_nil_iff]
    intro a ha
    simp [h a ha]
  have ho : l.filter (fun p => !startsWithS p (str "Vendor/")) = l := by
    rw [List.filter_eq_self]
    intro a ha
    simp [h a ha]
  simp [consolidateVendorPaths, hv, ho]

/-! ## Lemmas about the classification into runtime contexts -/

theorem get_pushEntry (m : RuntimeEntryMap) (c0 c : RuntimeContext) (e0 : Entry) :
    (pushEntry m c0 e0).get c = if c0 = c then m.get c ++ [e0] else m.get c := by
  cases c0 <;> cases c <;> simp [pushEntry, RuntimeEntryMap.get]

theorem mem_get_pushEntry {m : RuntimeEntryMap} {c0 c : RuntimeContext}
    {e0 e : Entry} :
    e ∈ (pushEntry m c0 e0).get c ↔ e ∈ m.get c ∨ (c0 = c ∧ e = e0) := by
  rw [get_pushEntry]
  by_cases h : c0 = c
  · simp [h]
  · simp [h]

theorem lookupEntry_mem :
    ∀ (tree : List (Str × Entry)) {n : Str} {e : Entry},
      lookupEntry tree n = some e → (n, e) ∈ tree
  | [], _, _, h => by simp [lookupEntry] at h
  | (k, v) :: rest, n, e, h => by
    rw [lookupEntry] at h
    by_cases hk : k = n
    · rw [if_pos hk] at h
      injection h with h2
      subst h2
      subst hk
      simp
    · rw [if_neg hk] at h
      exact List.mem_cons_of_mem _ (lookupEntry_mem rest h)

theorem lookupEntry_of_mem :
    ∀ (tree : List (Str × Entry)) {n : Str} {e : Entry},
      (tree.map Prod.fst).Nodup → (n, e) ∈ tree → lookupEntry tree n = some e
  | [], _, _, _, h => by simp at h
  | (k, v) :: rest, n, e, hnd, h => by
    rw [List.map_cons, List.nodup_cons] at hnd
    rcases List.mem_cons.mp h with heq | htail
    · rw [Prod.mk.injEq] at heq
      rw [lookupEntry, if_pos heq.1.symm, heq.2]
    · have hk : k ≠ n := by
        intro hkn
        refine hnd.1 ?_
        rw [hkn]
        exact List.mem_map.mpr ⟨(n, e), htail, rfl⟩
      rw [lookupEntry, if_neg hk]
      exact lookupEntry_of_mem rest hnd.2 htail

theorem key_eq_of_values_nodup :
    ∀ (tree : List (Str × Entry)) {k1 k2 : Str} {e : Entry},
      (tree.map Prod.snd).Nodup → (k1, e) ∈ tree → (k2, e) ∈ tree → k1 = k2
  | [], _, _, _, _, _, h => by simp at h
  | (k, v) :: rest, k1, k2, e, hnd, h1, h2 => by
    simp only [List.map_cons, List.nodup_cons] at hnd
    rcases List.mem_cons.mp h1 with heq1 | ht1 <;>
      rcases List.mem_cons.mp h2 with heq2 | ht2
    · rw [Prod.mk.injEq] at heq1 heq2
      rw [heq1.1, heq2.1]
    · rw [Prod.mk.injEq] at heq1
      refine absurd ?_ hnd.1
      rw [← heq1.2]
      exact List.mem_map.mpr ⟨(k2, e), ht2, rfl⟩
    · rw [Prod.mk.injEq] at heq2
      refine absurd ?_ hnd.1
      rw [← heq2.2]
      exact List.mem_map.mpr ⟨(k1, e), ht1, rfl⟩
    · exact key_eq_of_values_nodup rest hnd.2 ht1 ht2

theorem mem_cfg_addConfigured {cfg : List Str} {e : Entry} {n z : Str}
    (h : z ∈ cfg) : z ∈ addConfigured cfg e n := by
  unfold addConfigured
  match e.className with
  | some c => by_cases hc : c ≠ [] <;> simp_all
  | none => simp [h]

theorem name_mem_addConfigured (cfg : List Str) (e : Entry) (n : Str) :
    n ∈ addConfigured cfg e n := by
  unfold addConfigured
  match e.className with
  | some c => by_cases hc : c ≠ [] <;> simp_all
  | none => simp

theorem mem_configNames (tree : List (Str × Entry)) (rc : RuntimeContext) :
    ∀ (names : List Str) (st : RuntimeEntryMap × List Str) (e : Entry)
      (c : RuntimeContext),
      e ∈ (configNames tree rc names st).1.get c ↔
        e ∈ st.1.get c ∨ (rc = c ∧ ∃ n ∈ names, lookupEntry tree n = some e)
  | [], st, e, c => by simp [configNames]
  | n :: rest, st, e, c => by
    cases hlu : lookupEntry tree n with
    | none =>
      rw [configNames, hlu, mem_configNames tree rc rest st e c]
      constructor
      · rintro (h | ⟨hrc, m, hm, hl⟩)
        · exact Or.inl h
        · exact Or.inr ⟨hrc, m, by simp [hm], hl⟩
      · rintro (h | ⟨hrc, m, hm, hl⟩)
        · exact Or.inl h
        · rcases List.mem_cons.mp hm with rfl | hm2
          · rw [hlu] at hl
            exact absurd hl (by simp)
          · exact Or.inr ⟨hrc, m, hm2, hl⟩
    | some e0 =>
      rw [configNames, hlu,
        mem_configNames tree rc rest (pushEntry st.1 rc e0, addConfigured st.2 e0 n) e c]
      rw [show (pushEntry st.1 rc e0, addConfigured st.2 e0 n).1 = pushEntry st.1 rc e0 from rfl]
      rw [mem_get_pushEntry]
      constructor
      · rintro ((h | ⟨hrc, rfl⟩) | ⟨hrc, m, hm, hl⟩)
        · exact Or.inl h
        · exact Or.inr ⟨hrc, n, by simp, hlu⟩
        · exact Or.inr ⟨hrc, m, by simp [hm], hl⟩
      · rintro (h | ⟨hrc, m, hm, hl⟩)
        · exact Or.inl (Or.inl h)
        · rcases List.mem_cons.mp hm with rfl | hm2
          · rw [hlu] at hl
            exact Or.inl (Or.inr ⟨hrc, by injection hl with h2; exact h2.symm⟩)
          · exact Or.inr ⟨hrc, m, hm2, hl⟩

theorem mem_configurationPhase (tree : List (Str × Entry)) :
    ∀ (files : List (Str × List Str)) (st : RuntimeEntryMap × List Str)
      (e : Entry) (c : RuntimeContext),
      e ∈ (configurationPhase tree files st).1.get c ↔
        e ∈ st.1.get c ∨
          ∃ ck names, (ck, names) ∈ files ∧ getRuntimeContextFromKey ck = some c ∧
            ∃ n ∈ names, lookupEntry tree n = some e
  | [], st, e, c => by simp [configurationPhase]
  | (ck, names) :: rest, st, e, c => by
    cases hck : getRuntimeContextFromKey ck with
    | none =>
      rw [configurationPhase, hck, mem_configurationPhase tree rest st e c]
      constructor
      · rintro (h | ⟨ck2, ns2, hm, hr, hn⟩)
        · exact Or.inl h
        · exact Or.inr ⟨ck2, ns2, by simp [hm], hr, hn⟩
      · rintro (h | ⟨ck2, ns2, hm, hr, hn⟩)
        · exact Or.inl h
        · rcases List.mem_cons.mp hm with heq | hm2
          · rw [Prod.mk.injEq] at heq
            rw [heq.1] at hr
            rw [hck] at hr
            exact absurd hr (by simp)
          · exact Or.inr ⟨ck2, ns2, hm2, hr, hn⟩
    | some rc =>
      rw [configurationPhase, hck,
        mem_configurationPhase tree rest (configNames tree rc names st) e c,
        mem_configNames tree rc names st e c]
      constructor
      · rintro ((h | ⟨hrc, hn⟩) | ⟨ck2, ns2, hm, hr, hn⟩)
        · exact Or.inl h
        · exact Or.inr ⟨ck, names, by simp, by rw [hck, hrc], hn⟩
        · exact Or.inr ⟨ck2, ns2, by simp [hm], hr, hn⟩
      · rintro (h | ⟨ck2, ns2, hm, hr, hn⟩)
        · exact Or.inl (Or.inl h)
        · rcases List.mem_cons.mp hm with heq | hm2
          · rw [Prod.mk.injEq] at heq
            rw [heq.1] at hr
            rw [hck] at hr
            injection hr with h3
            exact Or.inl (Or.inr ⟨h3, heq.2 ▸ hn⟩)
          · exact Or.inr ⟨ck2, ns2, hm2, hr, hn⟩

theorem cfg_mono_configNames (tree : List (Str × Entry)) (rc : RuntimeContext) :
    ∀ (names : List Str) (st : RuntimeEntryMap × List Str) {z : Str},
      z ∈ st.2 → z ∈ (configNames tree rc names st).2
  | [], st, z, h => h
  | n :: rest, st, z, h => by
    cases hlu : lookupEntry tree n with
    | none =>
      rw [configNames, hlu]
      exact cfg_mono_configNames tree rc rest st h
    | some e0 =>
      rw [configNames, hlu]
      exact cfg_mono_configNames tree rc rest _ (mem_cfg_addConfigured h)

theorem name_mem_configNames (tree : List (Str × Entry)) (rc : RuntimeContext) :
    ∀ (names : List Str) (st : RuntimeEntryMap × List Str) {n : Str} {e : Entry},
      n ∈ names → lookupEntry tree n = some e →
      n ∈ (configNames tree rc names st).2
  | [], _, _, _, h, _ => by simp at h
  | m :: rest, st, n, e, hm, hl => by
    rcases List.mem_cons.mp hm with rfl | hm2
    · rw [configNames, hl]
      exact cfg_mono_configNames tree rc rest _ (name_mem_addConfigured _ _ _)
    · cases hlu : lookupEntry tree m with
      | none =>
        rw [configNames, hlu]
        exact name_mem_configNames tree rc rest st hm2 hl
      | some e0 =>
        rw [configNames, hlu]
        exact name_mem_configNames tree rc rest _ hm2 hl

theorem cfg_mono_configurationPhase (tree : List (Str × Entry)) :
    ∀ (files : List (Str × List Str)) (st : RuntimeEntryMap × List Str) {z : Str},
      z ∈ st.2 → z ∈ (configurationPhase tree files st).2
  | [], _, _, h => h
  | (ck, names) :: rest, st, z, h => by
    cases hck : getRuntimeContextFromKey ck with
    | none =>
      rw [configurationPhase, hck]
      exact cfg_mono_configurationPhase tree rest st h
    | some rc =>
      rw [configurationPhase, hck]
      exact cfg_mono_configurationPhase tree rest _
        (cfg_mono_configNames tree rc names st h)

theorem name_mem_configurationPhase (tree : List (Str × Entry)) :
    ∀ (files : List (Str × List Str)) (st : RuntimeEntryMap × List Str)
      {ck : Str} {names : List Str} {rc : RuntimeContext} {n : Str} {e : Entry},
      (ck, names) ∈ files → getRuntimeContextFromKey ck = some rc →
      n ∈ names → lookupEntry tree n = some e →
      n ∈ (configurationPhase tree files st).2
  | [], _, _, _, _, _, _, hm, _, _, _ => by simp at hm
  | (ck0, names0) :: rest, st, ck, names, rc, n, e, hm, hr, hn, hl => by
    rcases List.mem_cons.mp hm with heq | hm2
    · rw [Prod.mk.injEq] at heq
      rw [heq.1] at hr
      rw [configurationPhase, hr]
      exact cfg_mono_configurationPhase tree rest _
        (name_mem_configNames tree rc names0 st (heq.2 ▸ hn) hl)
    · cases hck : getRuntimeContextFromKey ck0 with
      | none =>
        rw [configurationPhase, hck]
        exact name_mem_configurationPhase tree rest st hm2 hr hn hl
      | some rc0 =>
        rw [configurationPhase, hck]
        exact name_mem_configurationPhase tree rest _ hm2 hr hn hl

theorem mem_fallbackPhase (cfg : List Str) :
    ∀ (pairs : List (Str × Entry)) (m : RuntimeEntryMap) (e : Entry)
      (c : RuntimeContext),
      e ∈ (fallbackPhase cfg pairs m).get c ↔
        e ∈ m.get c ∨
          ∃ k, (k, e) ∈ pairs ∧ cfg.contains k = false ∧
            fallbackContext cfg e = some c
  | [], m, e, c => by simp [fallbackPhase]
  | (k, v) :: rest, m, e, c => by
    by_cases hk : cfg.contains k
    · rw [fallbackPhase, if_pos hk, mem_fallbackPhase cfg rest m e c]
      constructor
      · rintro (h | ⟨k2, hm2, hc2, hf2⟩)
        · exact Or.inl h
        · exact Or.inr ⟨k2, by simp [hm2], hc2, hf2⟩
      · rintro (h | ⟨k2, hm2, hc2, hf2⟩)
        · exact Or.inl h
        · rcases List.mem_cons.mp hm2 with heq | hm3
          · rw [Prod.mk.injEq] at heq
            rw [heq.1] at hc2
            rw [hk] at hc2
            exact absurd hc2 (by simp)
          · exact Or.inr ⟨k2, hm3, hc2, hf2⟩
    · have hk2 : cfg.contains k = false := by simpa using hk
      cases hf : fallbackContext cfg v with
      | none =>
        rw [fallbackPhase, if_neg hk, hf, mem_fallbackPhase cfg rest m e c]
        constructor
        · rintro (h | ⟨k2, hm2, hc2, hf2⟩)
          · exact Or.inl h
          · exact Or.inr ⟨k2, by simp [hm2], hc2, hf2⟩
        · rintro (h | ⟨k2, hm2, hc2, hf2⟩)
          · exact Or.inl h
          · rcases List.mem_cons.mp hm2 with heq | hm3
            · rw [Prod.mk.injEq] at heq
              rw [← heq.2] at hf
              rw [hf] at hf2
              exact absurd hf2 (by simp)
            · exact Or.inr ⟨k2, hm3, hc2, hf2⟩
      | some rc =>
        rw [fallbackPhase, if_neg hk, hf,
          mem_fallbackPhase cfg rest (pushEntry m rc v) e c, mem_get_pushEntry]
        constructor
        · rintro ((h | ⟨hrc, rfl⟩) | ⟨k2, hm2, hc2, hf2⟩)
          · exact Or.inl h
          · exact Or.inr ⟨k, by simp, hk2, by rw [hf, hrc]⟩
          · exact Or.inr ⟨k2, by simp [hm2], hc2, hf2⟩
        · rintro (h | ⟨k2, hm2, hc2, hf2⟩)
          · exact Or.inl (Or.inl h)
          · rcases List.mem_cons.mp hm2 with heq | hm3
            · rw [Prod.mk.injEq] at heq
              rw [← heq.2] at hf
              rw [hf] at hf2
              injection hf2 with h3
              exact Or.inl (Or.inr ⟨h3, heq.2⟩)
            · exact Or.inr ⟨k2, hm3, hc2, hf2⟩

theorem fallbackContext_some_of_unconfigured {cfg : List Str} {v : Entry} {c : Str}
    (h1 : v.className = some c) (h2 : c ≠ []) (h3 : cfg.contains c = false) :
    ∃ rc, fallbackContext cfg v = some rc := by
  have hmem : c ∉ cfg := by simpa using h3
  cases hr : robloxServiceContext c with
  | some rc => exact ⟨rc, by simp [fallbackContext, h1, h2, hr, hmem]⟩
  | none => exact ⟨.Unknown, by simp [fallbackContext, h1, h2, hr, hmem]⟩

theorem mem_configMatchPhase (mg : Str → Str → Bool) (files : List (Str × List Str)) :
    ∀ (pairs : List (Str × Entry)) (st : RuntimeEntryMap × List Str) (e : Entry)
      (c : RuntimeContext),
      e ∈ (configMatchPhase mg files pairs st).1.get c ↔
        e ∈ st.1.get c ∨
          ∃ k, (k, e) ∈ pairs ∧ matchedContextOf mg files k e = some c
  | [], st, e, c => by simp [configMatchPhase]
  | (k, v) :: rest, st, e, c => by
    cases hm : matchedContextOf mg files k v with
    | none =>
      rw [configMatchPhase, hm, mem_configMatchPhase mg files rest st e c]
      constructor
      · rintro (h | ⟨k2, hm2, hc2⟩)
        · exact Or.inl h
        · exact Or.inr ⟨k2, by simp [hm2], hc2⟩
      · rintro (h | ⟨k2, hm2, hc2⟩)
        · exact Or.inl h
        · rcases List.mem_cons.mp hm2 with heq | hm3
          · rw [Prod.mk.injEq] at heq
            rw [heq.1, heq.2] at hc2
            rw [hm] at hc2
            exact absurd hc2 (by simp)
          · exact Or.inr ⟨k2, hm3, hc2⟩
    | some rc =>
      rw [configMatchPhase, hm,
        mem_configMatchPhase mg files rest (pushEntry st.1 rc v, addConfigured st.2 v k) e c]
      rw [show (pushEntry st.1 rc v, addConfigured st.2 v k).1 = pushEntry st.1 rc v from rfl]
      rw [mem_get_pushEntry]
      constructor
      · rintro ((h | ⟨hrc, rfl⟩) | ⟨k2, hm2, hc2⟩)
        · exact Or.inl h
        · exact Or.inr ⟨k, by simp, by rw [hm, hrc]⟩
        · exact Or.inr ⟨k2, by simp [hm2], hc2⟩
      · rintro (h | ⟨k2, hm2, hc2⟩)
        · exact Or.inl (Or.inl h)
        · rcases List.mem_cons.mp hm2 with heq | hm3
          · rw [Prod.mk.injEq] at heq
            rw [heq.1, heq.2] at hc2
            rw [hm] at hc2
            injection hc2 with h3
            exact Or.inl (Or.inr ⟨h3, heq.2⟩)
          · exact Or.inr ⟨k2, hm3, hc2⟩

theorem cfg_mono_configMatchPhase (mg : Str → Str → Bool) (files : List (Str × List Str)) :
    ∀ (pairs : List (Str × Entry)) (st : RuntimeEntryMap × List Str) {z : Str},
      z ∈ st.2 → z ∈ (configMatchPhase mg files pairs st).2
  | [], _, _, h => h
  | (k, v) :: rest, st, z, h => by
    cases hm : matchedContextOf mg files k v with
    | none =>
      rw [configMatchPhase, hm]
      exact cfg_mono_configMatchPhase mg files rest st h
    | some rc =>
      rw [configMatchPhase, hm]
      exact cfg_mono_configMatchPhase mg files rest _ (mem_cfg_addConfigured h)

theorem key_mem_configMatchPhase (mg : Str → Str → Bool) (files : List (Str × List Str)) :
    ∀ (pairs : List (Str × Entry)) (st : RuntimeEntryMap × List Str)
      {k : Str} {v : Entry} {rc : RuntimeContext},
      (k, v) ∈ pairs → matchedContextOf mg files k v = some rc →
      k ∈ (configMatchPhase mg files pairs st).2
  | [], _, _, _, _, hm, _ => by simp at hm
  | (k0, v0) :: rest, st, k, v, rc, hm, hmc => by
    rcases List.mem_cons.mp hm with heq | hm2
    · rw [Prod.mk.injEq] at heq
      rw [heq.1, heq.2] at hmc
      rw [configMatchPhase, hmc]
      refine cfg_mono_configMatchPhase mg files rest _ ?_
      rw [heq.1]
      exact name_mem_addConfigured _ _ _
    · cases hm0 : matchedContextOf mg files k0 v0 with
      | none =>
        rw [configMatchPhase, hm0]
        exact key_mem_configMatchPhase mg files rest st hm2 hmc
      | some rc0 =>
        rw [configMatchPhase, hm0]
        exact key_mem_configMatchPhase mg files rest _ hm2 hmc

theorem nameMatchContext_resolves {k cname : Str} {A : RuntimeContext}
    (hcne : cname ≠ []) :
    ∀ (files : List (Str × List Str)) (ckA : Str) (nsA : List Str),
      (ckA, nsA) ∈ files → getRuntimeContextFromKey ckA = some A → cname ∈ nsA →
      (∀ ck ns c, (ck, ns) ∈ files → getRuntimeContextFromKey ck = some c →
        c ≠ A → k ∉ ns ∧ cname ∉ ns) →
      nameMatchContext files k (some cname) = some A
  | [], _, _, hm, _, _, _ => by simp at hm
  | (ck0, ns0) :: rest, ckA, nsA, hm, hrA, hkA, hother => by
    cases hck : getRuntimeContextFromKey ck0 with
    | none =>
      rw [nameMatchContext, hck]
      rcases List.mem_cons.mp hm with heq | hm2
      · rw [Prod.mk.injEq] at heq
        rw [heq.1] at hrA
        rw [hck] at hrA
        exact absurd hrA (by simp)
      · exact nameMatchContext_resolves hcne rest ckA nsA hm2 hrA hkA
          (fun ck ns c hmem => hother ck ns c (by simp [hmem]))
    | some c0 =>
      by_cases hcond : (ns0.contains k || (!cname.isEmpty && ns0.contains cname)) = true
      · have hcond2 : k ∈ ns0 ∨ (¬cname = [] ∧ cname ∈ ns0) := by
          simpa using hcond
        have hc0 : c0 = A := by
          by_contra hne
          have hno := hother ck0 ns0 c0 (by simp) hck hne
          rcases hcond2 with hmm | ⟨_, hmm⟩
          · exact hno.1 hmm
          · exact hno.2 hmm
        simp only [nameMatchContext, hck, hcond]
        simp [hc0]
      · have hcond2 : (ns0.contains k || (!cname.isEmpty && ns0.contains cname)) = false := by
          simpa using hcond
        have hstep : nameMatchContext ((ck0, ns0) :: rest) k (some cname) =
            nameMatchContext rest k (some cname) := by
          simp only [nameMatchContext, hck, hcond2]
          simp
        rw [hstep]
        rcases List.mem_cons.mp hm with heq | hm2
        · rw [Prod.mk.injEq] at heq
          rw [heq.2] at hkA
          have hb : ns0.contains cname = true := List.elem_iff.mpr hkA
          have hie : cname.isEmpty = false := by
            cases cname with
            | nil => exact absurd rfl hcne
            | cons a l => rfl
          rw [hb, hie] at hcond2
          simp at hcond2
        · exact nameMatchContext_resolves hcne rest ckA nsA hm2 hrA hkA
            (fun ck ns c hmem => hother ck ns c (by simp [hmem]))

theorem get_emptyRuntimeEntryMap (cx : RuntimeContext) :
    emptyRuntimeEntryMap.get cx = [] := by
  cases cx <;> rfl

theorem mem_collectIntoRuntimeMap (tree : List (Str × Entry))
    (files : List (Str × List Str)) (e : Entry) (cx : RuntimeContext) :
    e ∈ (collectIntoRuntimeMap tree files).get cx ↔
      (∃ ck ns, (ck, ns) ∈ files ∧ getRuntimeContextFromKey ck = some cx ∧
        ∃ n ∈ ns, lookupEntry tree n = some e) ∨
      (∃ k, (k, e) ∈ tree ∧
        (configurationPhase tree files (emptyRuntimeEntryMap, [])).2.contains k = false ∧
        fallbackContext (configurationPhase tree files (emptyRuntimeEntryMap, [])).2 e =
          some cx) := by
  rw [show collectIntoRuntimeMap tree files =
    fallbackPhase (configurationPhase tree files (emptyRuntimeEntryMap, [])).2 tree
      (configurationPhase tree files (emptyRuntimeEntryMap, [])).1 from rfl]
  rw [mem_fallbackPhase, mem_configurationPhase]
  rw [show (emptyRuntimeEntryMap, ([] : List Str)).1 = emptyRuntimeEntryMap from rfl,
    get_emptyRuntimeEntryMap]
  simp

theorem mem_collectFromConfigurationCore (mg : Str → Str → Bool)
    (tree : List (Str × Entry)) (files : List (Str × List Str))
    (e : Entry) (cx : RuntimeContext) :
    e ∈ (collectFromConfigurationCore mg tree files).get cx ↔
      (∃ k, (k, e) ∈ tree ∧ matchedContextOf mg files k e = some cx) ∨
      (∃ k, (k, e) ∈ tree ∧
        (configMatchPhase mg files tree (emptyRuntimeEntryMap, [])).2.contains k = false ∧
        fallbackContext (configMatchPhase mg files tree (emptyRuntimeEntryMap, [])).2 e =
          some cx) := by
  rw [show collectFromConfigurationCore mg tree files =
    fallbackPhase (configMatchPhase mg files tree (emptyRuntimeEntryMap, [])).2 tree
      (configMatchPhase mg files tree (emptyRuntimeEntryMap, [])).1 from rfl]
  rw [mem_fallbackPhase, mem_configMatchPhase]
  rw [show (emptyRuntimeEntryMap, ([] : List Str)).1 = emptyRuntimeEntryMap from rfl,
    get_emptyRuntimeEntryMap]
  simp

theorem extract_no_empty : (e : Entry) → ([] : Str) ∉ extractPathsFromEntry e
  | .mk cn p cs => by
    rw [extractPathsFromEntry.eq_def]
    intro hmem
    rcases List.mem_append.mp hmem with h1 | h2
    · cases p with
      | none => simp at h1
      | some q =>
        by_cases hq : q = []
        · simp [hq] at h1
        · simp [hq] at h1
    · rw [List.mem_flatten] at h2
      rcases h2 with ⟨l, hl, hml⟩
      rw [List.mem_map] at hl
      rcases hl with ⟨x, hx, rfl⟩
      exact extract_no_empty x.1.2 hml
termination_by e => sizeOf e
decreasing_by
  have h1 := List.sizeOf_lt_of_mem x.2
  obtain ⟨⟨k0, c0⟩, hm⟩ := x
  simp at h1 ⊢
  omega

/-! ## Claim theorems -/

/-- Claim C1: the claim states that consolidation never narrows
coverage, for any input including a glob at the grouping root itself.
The code violates this: on input `["Vendor/**", "Vendor/A/**"]` the
domination pass keeps only `"Vendor/**"`, and the vendor-grouping pass
then drops it entirely (its stripped base `"Vendor"` splits into a
single segment, so it joins no group), returning the empty list — even
though the input glob `"Vendor/**"` covered files such as
`"Vendor/file.luau"`.  This contradicts the documented intent of
`consolidatePaths` (keep the covering pattern, drop the covered one),
so the claim is right and the code has a bug. -/
theorem c1_vendor_root_glob_dropped :
    consolidatePaths [str "Vendor/**", str "Vendor/A/**"] = [] ∧
    globCovers (str "Vendor/**") (str "Vendor/file.luau") = true :=
  ⟨by decide, by decide⟩

/-- Claim C6 (counterexample): `consolidatePaths` is not idempotent as
stated.  On the input below the first application returns
`["Vendor/Y/Long/**", "Vendor/X/**"]` (group order follows the sorted
member order), while the second application re-sorts by length and
emits the groups in the new first-encounter order,
`["Vendor/X/**", "Vendor/Y/Long/**"]` — same elements, different
order. -/
theorem c6_counterexample :
    consolidatePaths (consolidatePaths
        [str "Vendor/Y/Long/**", str "Vendor/X/AAAAAAA/**", str "Vendor/X/BBBBBBB/**"]) ≠
      consolidatePaths
        [str "Vendor/Y/Long/**", str "Vendor/X/AAAAAAA/**", str "Vendor/X/BBBBBBB/**"] := by
  decide

/-- Claim C6 (amended): `consolidatePaths` is idempotent — same
elements in the same order — for every input list that contains no path
starting with `"Vendor/"`; for vendor paths the second application may
reorder the output, as the counterexample shows. -/
theorem c6_consolidate_idem_vendor_free (l : List Str)
    (h : ∀ p ∈ l, startsWithS p (str "Vendor/") = false) :
    consolidatePaths (consolidatePaths l) = consolidatePaths l := by
  by_cases hlen : l.length ≤ 1
  · have e1 : consolidatePaths l = l := by rw [consolidatePaths, if_pos hlen]
    rw [e1]
    exact e1
  · have e1 : consolidatePaths l =
        consolidateVendorPaths (dominationPass (sortLen l)) := by
      rw [consolidatePaths, if_neg hlen]
    rcases dominationAux_spec (sortLen l) [] with ⟨s, hs, hsub⟩
    have hks : dominationPass (sortLen l) = s := by
      rw [dominationPass, hs]
      simp
    have hmem : ∀ p ∈ s, startsWithS p (str "Vendor/") = false := by
      intro p hp
      exact h p (mem_sortLen (hsub.subset hp))
    have hsorted : s.Pairwise lenLE := List.Pairwise.sublist hsub (sortLen_sorted l)
    have hnd : s.Pairwise noDom := by
      have h2 := dominationAux_pairwise (sortLen l) [] (by simp)
      rw [hs] at h2
      simpa using h2
    have e2 : consolidatePaths l = s := by
      rw [e1, hks]
      exact consolidateVendorPaths_of_vendor_free hmem
    rw [e2]
    by_cases hslen : s.length ≤ 1
    · rw [consolidatePaths, if_pos hslen]
    · rw [consolidatePaths, if_neg hslen]
      rw [show sortLen s = s from sortLen_of_sorted hsorted]
      rw [show dominationPass s = s from by
        rw [dominationPass, dominationAux_stable s [] (by simp) hnd]
        simp]
      exact consolidateVendorPaths_of_vendor_free hmem

/-- Claim C6 (witness): the amended idempotence theorem applied to a
concrete vendor-free path list. -/
theorem c6_consolidate_idem_vendor_free_witness :
    (∀ p ∈ [str "src/shared/**", str "Packages/**"],
      startsWithS p (str "Vendor/") = false) ∧
    consolidatePaths (consolidatePaths [str "src/shared/**", str "Packages/**"]) =
      consolidatePaths [str "src/shared/**", str "Packages/**"] :=
  ⟨by decide, c6_consolidate_idem_vendor_free _ (by decide)⟩

/-- Claim C7: under the hard-coded grouping root `Vendor`, two sibling
globs under the same immediate child collapse to the child glob, and a
single glob is returned unchanged. -/
theorem c7_sibling_grouping :
    consolidatePaths [str "Vendor/Sub/X/**", str "Vendor/Sub/Y/**"] =
      [str "Vendor/Sub/**"] ∧
    consolidatePaths [str "Vendor/Sub/X/**"] = [str "Vendor/Sub/X/**"] :=
  ⟨by decide, by decide⟩

/-- Claim C8: directory-pattern and single-star semantics of the simple
ignore filter, evaluated on the claimed inputs: `"Packages/"` ignores
both the directory itself and files beneath it, and `"*.tmp"` matches
`"a.tmp"` but not `"a/b.tmp"` because `*` is compiled to `[^/]*`, which
does not cross a path separator. -/
theorem c8_ignore_filter_semantics :
    ignores (buildIgnoreFilter (str "Packages/")) (str "Packages") = true ∧
    ignores (buildIgnoreFilter (str "Packages/")) (str "Packages/sub/file.luau") = true ∧
    ignores (buildIgnoreFilter (str "*.tmp")) (str "a.tmp") = true ∧
    ignores (buildIgnoreFilter (str "*.tmp")) (str "a/b.tmp") = false :=
  ⟨by decide, by decide, by decide, by decide⟩

/-- Claim C9 (counterexample): a line starting with `!` is NOT skipped
by the simple ignore filter.  `IgnoreFilter.add` only filters empty and
`#` lines, so `"!foo"` is stored verbatim and changes the result of
`ignores` on the path `"!foo"` — the claim that a negation line has no
effect on the filter is false. -/
theorem c9_counterexample :
    buildIgnoreFilter (str "!foo") = [str "!foo"] ∧
    ignores (buildIgnoreFilter (str "!foo")) (str "!foo") = true ∧
    ignores (buildIgnoreFilter (str "")) (str "!foo") = false :=
  ⟨by decide, by decide, by decide⟩

/-- A line whose trimmed form starts with `!` produces no pattern in the
`parseGitignoreAsync` line processing. -/
theorem bang_line_no_pattern {line : Str}
    (h : startsWithS (trimStr line) (str "!") = true) :
    parseGitignoreLine line = none := by
  unfold parseGitignoreLine
  by_cases h1 : (trimStr line).isEmpty
  · simp [h1]
  · by_cases h2 : startsWithS (trimStr line) (str "#")
    · simp [h1, h2]
    · simp [h1, h2, h]

/-- Claim C9 (amended): for the patterns parsed for the analyzer
invocation (`parseGitignoreAsync`), every line starting with `!` is
skipped and has no effect on the resulting pattern list — removing the
negation lines from the input leaves the output unchanged.  The simple
`IgnoreFilter.add`, however, stores `!` lines verbatim (see the
counterexample), so the skipping guarantee holds only for the parsed
analyzer patterns. -/
theorem c9_negation_lines_skipped :
    (∀ line : Str, startsWithS (trimStr line) (str "!") = true →
      parseGitignoreLine line = none) ∧
    (∀ lines : List Str,
      parseGitignoreCore lines =
        parseGitignoreCore
          (lines.filter (fun l => !startsWithS (trimStr l) (str "!")))) := by
  refine ⟨fun line h => bang_line_no_pattern h, fun lines => ?_⟩
  induction lines with
  | nil => rfl
  | cons l rest ih =>
    by_cases hb : startsWithS (trimStr l) (str "!") = true
    · rw [show ((l :: rest).filter (fun l => !startsWithS (trimStr l) (str "!"))) =
        rest.filter (fun l => !startsWithS (trimStr l) (str "!")) from by
          simp [List.filter_cons, hb]]
      rw [show parseGitignoreCore (l :: rest) = parseGitignoreCore rest from by
        simp [parseGitignoreCore, List.filterMap_cons, bang_line_no_pattern hb]]
      exact ih
    · have hb2 : (!startsWithS (trimStr l) (str "!")) = true := by
        simp [Bool.not_eq_true] at hb
        simp [hb]
      simp only [parseGitignoreCore] at ih
      cases hpl : parseGitignoreLine l with
      | none =>
        simp [parseGitignoreCore, List.filter_cons, List.filterMap_cons, hb2, hpl, ih]
      | some v =>
        simp [parseGitignoreCore, List.filter_cons, List.filterMap_cons, hb2, hpl, ih]

/-- Claim C9 (witness): the amended theorem applied to a concrete
negation line and a concrete line list. -/
theorem c9_negation_lines_skipped_witness :
    (startsWithS (trimStr (str "!keep.luau")) (str "!") = true ∧
      parseGitignoreLine (str "!keep.luau") = none) ∧
    parseGitignoreCore [str "build/", str "!keep.luau"] =
      parseGitignoreCore
        ([str "build/", str "!keep.luau"].filter
          (fun l => !startsWithS (trimStr l) (str "!"))) :=
  ⟨⟨by decide, c9_negation_lines_skipped.1 _ (by decide)⟩,
    c9_negation_lines_skipped.2 _⟩

/-- Claim C2 (counterexample): when the configuration lists the same
service name under two different context keys, `collectIntoRuntimeMap`
pushes the same tree entry into both contexts — the configuration loop
never consults the configured-services set, which only guards the
fallback loop.  Here the entry keyed `Foo` ends up in both the Client
and the Server lists. -/
theorem c2_counterexample :
    (collectIntoRuntimeMap
        [(str "Foo", .mk none (some (str "src/foo")) [])]
        [(str "client", [str "Foo"]), (str "server", [str "Foo"]),
         (str "shared", []), (str "testing", [])]).get .Client =
      [.mk none (some (str "src/foo")) []] ∧
    (collectIntoRuntimeMap
        [(str "Foo", .mk none (some (str "src/foo")) [])]
        [(str "client", [str "Foo"]), (str "server", [str "Foo"]),
         (str "shared", []), (str "testing", [])]).get .Server =
      [.mk none (some (str "src/foo")) []] :=
  ⟨rfl, rfl⟩

/-- Claim C2 (amended): in the `RuntimeEntryMap` returned by
`collectIntoRuntimeMap` no tree entry appears in the entry lists of two
different runtime contexts, PROVIDED the configuration does not list a
tree-matching service name under keys resolving to two different
contexts (the unamended claim fails exactly in that case, see the
counterexample).  Entry identity is modelled by requiring the top-level
keys and entry values to be pairwise distinct, as JavaScript object
identity guarantees. -/
theorem c2_disjointness (tree : List (Str × Entry)) (files : List (Str × List Str))
    (hv : (tree.map Prod.snd).Nodup)
    (hcfg : ∀ p1 ∈ files, ∀ p2 ∈ files, ∀ n ∈ p1.2, n ∈ p2.2 →
      (lookupEntry tree n).isSome = true →
      getRuntimeContextFromKey p1.1 = getRuntimeContextFromKey p2.1 ∨
        getRuntimeContextFromKey p1.1 = none ∨ getRuntimeContextFromKey p2.1 = none)
    (e : Entry) (c c' : RuntimeContext)
    (h1 : e ∈ (collectIntoRuntimeMap tree files).get c)
    (h2 : e ∈ (collectIntoRuntimeMap tree files).get c') : c = c' := by
  rcases (mem_collectIntoRuntimeMap tree files e c).mp h1 with
    ⟨ck1, ns1, hm1, hr1, n1, hn1, hl1⟩ | ⟨k1, hk1, hc1, hf1⟩ <;>
    rcases (mem_collectIntoRuntimeMap tree files e c').mp h2 with
      ⟨ck2, ns2, hm2, hr2, n2, hn2, hl2⟩ | ⟨k2, hk2, hc2, hf2⟩
  · have hn12 : n1 = n2 :=
      key_eq_of_values_nodup tree hv (lookupEntry_mem tree hl1) (lookupEntry_mem tree hl2)
    rcases hcfg (ck1, ns1) hm1 (ck2, ns2) hm2 n1 hn1 (hn12.symm ▸ hn2)
      (by rw [hl1]; rfl) with heq | hno | hno
    · rw [hr1, hr2] at heq
      injection heq
    · rw [hr1] at hno
      cases hno
    · rw [hr2] at hno
      cases hno
  · have hn1k : n1 = k2 :=
      key_eq_of_values_nodup tree hv (lookupEntry_mem tree hl1) hk2
    have hincfg : n1 ∈ (configurationPhase tree files (emptyRuntimeEntryMap, [])).2 :=
      name_mem_configurationPhase tree files _ hm1 hr1 hn1 hl1
    rw [hn1k] at hincfg
    have hc2m : k2 ∉ (configurationPhase tree files (emptyRuntimeEntryMap, [])).2 := by
      simpa using hc2
    exact absurd hincfg hc2m
  · have hn2k : n2 = k1 :=
      key_eq_of_values_nodup tree hv (lookupEntry_mem tree hl2) hk1
    have hincfg : n2 ∈ (configurationPhase tree files (emptyRuntimeEntryMap, [])).2 :=
      name_mem_configurationPhase tree files _ hm2 hr2 hn2 hl2
    rw [hn2k] at hincfg
    have hc1m : k1 ∉ (configurationPhase tree files (emptyRuntimeEntryMap, [])).2 := by
      simpa using hc1
    exact absurd hincfg hc1m
  · rw [hf1] at hf2
    exact Option.some.inj hf2

/-- Claim C2 (witness): the amended disjointness theorem applied to a
concrete one-entry tree.  The configuration even lists the name `Ghost`
under both the client and the server keys; since `Ghost` matches no
tree entry, the amended proviso (which restricts only tree-matching
duplicated names) is satisfied and the theorem applies. -/
theorem c2_disjointness_witness :
    ((([(str "Foo", Entry.mk none (some (str "src/foo")) [])].map
        Prod.snd).Nodup ∧
      (lookupEntry [(str "Foo", Entry.mk none (some (str "src/foo")) [])]
        (str "Ghost")).isSome = false) ∧
      (Entry.mk none (some (str "src/foo")) [] : Entry) ∈
        (collectIntoRuntimeMap
          [(str "Foo", .mk none (some (str "src/foo")) [])]
          [(str "client", [str "Foo", str "Ghost"]), (str "server", [str "Ghost"]),
           (str "shared", []), (str "testing", [])]).get .Client) ∧
    RuntimeContext.Client = RuntimeContext.Client := by
  have hmem : (Entry.mk none (some (str "src/foo")) [] : Entry) ∈
      (collectIntoRuntimeMap
        [(str "Foo", .mk none (some (str "src/foo")) [])]
        [(str "client", [str "Foo", str "Ghost"]), (str "server", [str "Ghost"]),
         (str "shared", []), (str "testing", [])]).get .Client := by
    exact List.mem_singleton.mpr rfl
  refine ⟨⟨⟨by simp, by decide⟩, hmem⟩, ?_⟩
  exact c2_disjointness _ _ (by simp) (by decide) _ _ _ hmem hmem

/-- Claim C3 (counterexample): a top-level entry with a non-empty
`$path` but no `$className`, under an empty configuration, appears in
NO context list of `collectIntoRuntimeMap` — the fallback loop only
pushes entries that have a class name, so the result is the empty map
and the entry does not appear in exactly one context as claimed. -/
theorem c3_counterexample :
    collectIntoRuntimeMap
        [(str "Foo", .mk none (some (str "src/foo")) [])]
        [(str "client", []), (str "server", []),
         (str "shared", []), (str "testing", [])] =
      emptyRuntimeEntryMap :=
  rfl

/-- Claim C3 (amended): a top-level tree entry with a non-empty
`$className` whose key and class name are both absent from the
configured-services set appears in exactly one context list of
`collectIntoRuntimeMap` (possibly `Unknown`).  The unamended claim also
promised this for entries with only a `$path` and for nested entries;
the counterexample shows such entries can appear in no list at all, and
nested entries are never pushed (only top-level pairs are iterated). -/
theorem c3_coverage (tree : List (Str × Entry)) (files : List (Str × List Str))
    (hv : (tree.map Prod.snd).Nodup)
    (k : Str) (e : Entry) (cn : Str)
    (hmem : (k, e) ∈ tree) (hcn : e.className = some cn) (hne : cn ≠ [])
    (hkc : (configurationPhase tree files (emptyRuntimeEntryMap, [])).2.contains k = false)
    (hcc : (configurationPhase tree files (emptyRuntimeEntryMap, [])).2.contains cn = false) :
    ∃ c, e ∈ (collectIntoRuntimeMap tree files).get c ∧
      ∀ c', e ∈ (collectIntoRuntimeMap tree files).get c' → c' = c := by
  rcases fallbackContext_some_of_unconfigured hcn hne hcc with ⟨rc, hrc⟩
  refine ⟨rc, ?_, ?_⟩
  · exact (mem_collectIntoRuntimeMap tree files e rc).mpr
      (Or.inr ⟨k, hmem, hkc, hrc⟩)
  · intro c' h'
    rcases (mem_collectIntoRuntimeMap tree files e c').mp h' with
      ⟨ck2, ns2, hm2, hr2, n, hn, hl⟩ | ⟨k2, hk2, hc2, hf2⟩
    · have hnk : n = k :=
        key_eq_of_values_nodup tree hv (lookupEntry_mem tree hl) hmem
      have hincfg : n ∈ (configurationPhase tree files (emptyRuntimeEntryMap, [])).2 :=
        name_mem_configurationPhase tree files _ hm2 hr2 hn hl
      rw [hnk] at hincfg
      have hkcm : k ∉ (configurationPhase tree files (emptyRuntimeEntryMap, [])).2 := by
        simpa using hkc
      exact absurd hincfg hkcm
    · rw [hrc] at hf2
      injection hf2 with h3
      exact h3.symm

/-- Claim C3 (witness): the amended coverage theorem applied to a
concrete entry with an unknown class name and an empty configuration;
the entry lands in exactly one context list. -/
theorem c3_coverage_witness :
    ((Entry.mk (some (str "MyClass")) (some (str "p")) [] : Entry).className =
        some (str "MyClass") ∧
      (configurationPhase
        [(str "Custom", Entry.mk (some (str "MyClass")) (some (str "p")) [])]
        [(str "client", []), (str "server", []), (str "shared", []), (str "testing", [])]
        (emptyRuntimeEntryMap, [])).2.contains (str "Custom") = false) ∧
    ∃ c, (Entry.mk (some (str "MyClass")) (some (str "p")) [] : Entry) ∈
        (collectIntoRuntimeMap
          [(str "Custom", Entry.mk (some (str "MyClass")) (some (str "p")) [])]
          [(str "client", []), (str "server", []), (str "shared", []),
           (str "testing", [])]).get c ∧
      ∀ c', (Entry.mk (some (str "MyClass")) (some (str "p")) [] : Entry) ∈
          (collectIntoRuntimeMap
            [(str "Custom", Entry.mk (some (str "MyClass")) (some (str "p")) [])]
            [(str "client", []), (str "server", []), (str "shared", []),
             (str "testing", [])]).get c' → c' = c :=
  ⟨⟨rfl, by decide⟩,
    c3_coverage _ _ (by simp) _ _ _ (List.mem_singleton.mpr rfl) rfl
      (by decide) (by decide) (by decide)⟩

/-- Claim C4 (counterexample): `collectIntoRuntimeMap` matches
configured names against TREE KEYS, not class names.  Here the class
name `ServerScriptService` is configured for the client context, but
the entry is keyed `Foo`, so the configuration loop finds nothing and
the metadata fallback classifies the entry as Server — configuration
does not win as claimed. -/
theorem c4_counterexample :
    (collectIntoRuntimeMap
        [(str "Foo", .mk (some (str "ServerScriptService")) (some (str "x")) [])]
        [(str "client", [str "ServerScriptService"]), (str "server", []),
         (str "shared", []), (str "testing", [])]).get .Server =
      [.mk (some (str "ServerScriptService")) (some (str "x")) []] ∧
    (collectIntoRuntimeMap
        [(str "Foo", .mk (some (str "ServerScriptService")) (some (str "x")) [])]
        [(str "client", [str "ServerScriptService"]), (str "server", []),
         (str "shared", []), (str "testing", [])]).get .Client = [] :=
  ⟨rfl, rfl⟩

/-- Claim C4 (amended): configuration beats the static service
metadata, with the qualifications the counterexample forces.  Let the
entry have class name `cname`, configured for context A and for no
other context, with the entry's tree key also configured for no other
context, while the metadata table maps `cname` to B.  Then the
classification core of `collectFromConfigurationAsync`, which matches
class names directly, classifies the entry into A and not B for any
external glob matcher `mg` — no relation between key and class name is
required.  `collectIntoRuntimeMap`, by contrast, matches configured
names against tree keys only, so it classifies into A exactly under the
extra premise that the entry is keyed by its own class name (the usual
Rojo layout); the counterexample shows it lands in B otherwise. -/
theorem c4_configuration_wins (tree : List (Str × Entry))
    (files : List (Str × List Str))
    (hk : (tree.map Prod.fst).Nodup) (hv : (tree.map Prod.snd).Nodup)
    (k cname : Str) (e : Entry) (A B : RuntimeContext) (ckA : Str) (nsA : List Str)
    (hmem : (k, e) ∈ tree) (hcn : e.className = some cname) (hcne : cname ≠ [])
    (hfA : (ckA, nsA) ∈ files) (hrA : getRuntimeContextFromKey ckA = some A)
    (hcA : cname ∈ nsA) (hAB : A ≠ B) (_hmeta : robloxServiceContext cname = some B)
    (hother : ∀ p ∈ files, getRuntimeContextFromKey p.1 = some A ∨
      getRuntimeContextFromKey p.1 = none ∨ (k ∉ p.2 ∧ cname ∉ p.2)) :
    (k = cname →
      e ∈ (collectIntoRuntimeMap tree files).get A ∧
        e ∉ (collectIntoRuntimeMap tree files).get B) ∧
    ∀ mg, e ∈ (collectFromConfigurationCore mg tree files).get A ∧
      e ∉ (collectFromConfigurationCore mg tree files).get B := by
  have hother2 : ∀ ck ns c, (ck, ns) ∈ files → getRuntimeContextFromKey ck = some c →
      c ≠ A → k ∉ ns ∧ cname ∉ ns := by
    intro ck ns c hm hr hne
    rcases hother (ck, ns) hm with h | h | h
    · rw [hr] at h
      exact absurd (Option.some.inj h) hne
    · rw [hr] at h
      cases h
    · exact h
  constructor
  · intro hkeq
    subst hkeq
    have hlk : lookupEntry tree k = some e := lookupEntry_of_mem tree hk hmem
    constructor
    · exact (mem_collectIntoRuntimeMap tree files e A).mpr
        (Or.inl ⟨ckA, nsA, hfA, hrA, k, hcA, hlk⟩)
    · intro hB
      rcases (mem_collectIntoRuntimeMap tree files e B).mp hB with
        ⟨ck2, ns2, hm2, hr2, n, hn, hl⟩ | ⟨k2, hk2, hc2, hf2⟩
      · have hnk : n = k :=
          key_eq_of_values_nodup tree hv (lookupEntry_mem tree hl) hmem
        exact (hother2 ck2 ns2 B hm2 hr2 (Ne.symm hAB)).1 (hnk ▸ hn)
      · have hk2k : k2 = k := key_eq_of_values_nodup tree hv hk2 hmem
        have hincfg : k ∈ (configurationPhase tree files (emptyRuntimeEntryMap, [])).2 :=
          name_mem_configurationPhase tree files _ hfA hrA hcA hlk
        rw [hk2k] at hc2
        have hcm : k ∉ (configurationPhase tree files (emptyRuntimeEntryMap, [])).2 := by
          simpa using hc2
        exact hcm hincfg
  · intro mg
    have hnm : nameMatchContext files k (some cname) = some A :=
      nameMatchContext_resolves hcne files ckA nsA hfA hrA hcA hother2
    have hmc : matchedContextOf mg files k e = some A := by
      simp [matchedContextOf, hcn, hnm]
    constructor
    · exact (mem_collectFromConfigurationCore mg tree files e A).mpr
        (Or.inl ⟨k, hmem, hmc⟩)
    · intro hB
      rcases (mem_collectFromConfigurationCore mg tree files e B).mp hB with
        ⟨k2, hk2, hmc2⟩ | ⟨k2, hk2, hc2, hf2⟩
      · have hk2k : k2 = k := key_eq_of_values_nodup tree hv hk2 hmem
        rw [hk2k] at hmc2
        rw [hmc] at hmc2
        exact hAB (Option.some.inj hmc2)
      · have hk2k : k2 = k := key_eq_of_values_nodup tree hv hk2 hmem
        have hincfg : k ∈ (configMatchPhase mg files tree (emptyRuntimeEntryMap, [])).2 :=
          key_mem_configMatchPhase mg files tree _ hmem hmc
        rw [hk2k] at hc2
        have hcm : k ∉ (configMatchPhase mg files tree (emptyRuntimeEntryMap, [])).2 := by
          simpa using hc2
        exact hcm hincfg

/-- Claim C4 (witness): the amended theorem applied twice.  First to an
entry keyed by its class name `ServerScriptService` (exercising both
the `collectIntoRuntimeMap` half and the core half), then to the same
entry under the unrelated key `Foo` — a key different from the class
name — showing the core half still classifies it into Client by class
name alone.  The class name is configured for Client while the metadata
maps it to Server; the glob-matcher oracle always answers false. -/
theorem c4_configuration_wins_witness :
    (robloxServiceContext (str "ServerScriptService") = some .Server ∧
      RuntimeContext.Client ≠ RuntimeContext.Server ∧
      (str "Foo" : Str) ≠ str "ServerScriptService") ∧
    ((Entry.mk (some (str "ServerScriptService")) (some (str "x")) [] : Entry) ∈
        (collectIntoRuntimeMap
          [(str "ServerScriptService",
            .mk (some (str "ServerScriptService")) (some (str "x")) [])]
          [(str "client", [str "ServerScriptService"]), (str "server", []),
           (str "shared", []), (str "testing", [])]).get .Client ∧
      (Entry.mk (some (str "ServerScriptService")) (some (str "x")) [] : Entry) ∉
        (collectIntoRuntimeMap
          [(str "ServerScriptService",
            .mk (some (str "ServerScriptService")) (some (str "x")) [])]
          [(str "client", [str "ServerScriptService"]), (str "server", []),
           (str "shared", []), (str "testing", [])]).get .Server) ∧
    ((Entry.mk (some (str "ServerScriptService")) (some (str "x")) [] : Entry) ∈
        (collectFromConfigurationCore (fun _ _ => false)
          [(str "ServerScriptService",
            .mk (some (str "ServerScriptService")) (some (str "x")) [])]
          [(str "client", [str "ServerScriptService"]), (str "server", []),
           (str "shared", []), (str "testing", [])]).get .Client ∧
      (Entry.mk (some (str "ServerScriptService")) (some (str "x")) [] : Entry) ∉
        (collectFromConfigurationCore (fun _ _ => false)
          [(str "ServerScriptService",
            .mk (some (str "ServerScriptService")) (some (str "x")) [])]
          [(str "client", [str "ServerScriptService"]), (str "server", []),
           (str "shared", []), (str "testing", [])]).get .Server) ∧
    ((Entry.mk (some (str "ServerScriptService")) (some (str "x")) [] : Entry) ∈
        (collectFromConfigurationCore (fun _ _ => false)
          [(str "Foo",
            .mk (some (str "ServerScriptService")) (some (str "x")) [])]
          [(str "client", [str "ServerScriptService"]), (str "server", []),
           (str "shared", []), (str "testing", [])]).get .Client ∧
      (Entry.mk (some (str "ServerScriptService")) (some (str "x")) [] : Entry) ∉
        (collectFromConfigurationCore (fun _ _ => false)
          [(str "Foo",
            .mk (some (str "ServerScriptService")) (some (str "x")) [])]
          [(str "client", [str "ServerScriptService"]), (str "server", []),
           (str "shared", []), (str "testing", [])]).get .Server) := by
  have happ1 := c4_configuration_wins
    [(str "ServerScriptService",
      .mk (some (str "ServerScriptService")) (some (str "x")) [])]
    [(str "client", [str "ServerScriptService"]), (str "server", []),
     (str "shared", []), (str "testing", [])]
    (by simp) (by simp)
    (str "ServerScriptService") (str "ServerScriptService")
    (.mk (some (str "ServerScriptService")) (some (str "x")) [])
    .Client .Server (str "client") [str "ServerScriptService"]
    (List.mem_singleton.mpr rfl) rfl (by decide)
    (by simp) (by decide) (by decide) (by decide) (by decide) (by decide)
  have happ2 := c4_configuration_wins
    [(str "Foo",
      .mk (some (str "ServerScriptService")) (some (str "x")) [])]
    [(str "client", [str "ServerScriptService"]), (str "server", []),
     (str "shared", []), (str "testing", [])]
    (by simp) (by simp)
    (str "Foo") (str "ServerScriptService")
    (.mk (some (str "ServerScriptService")) (some (str "x")) [])
    .Client .Server (str "client") [str "ServerScriptService"]
    (List.mem_singleton.mpr rfl) rfl (by decide)
    (by simp) (by decide) (by decide) (by decide) (by decide) (by decide)
  exact ⟨⟨by decide, by decide, by decide⟩, happ1.1 rfl,
    happ1.2 (fun _ _ => false), happ2.2 (fun _ _ => false)⟩

/-- Claim C5: in `processEntry`, a node whose class name matches no
service metadata and whose key matches none either is classified into
exactly the runtime context inherited from its nearest classified
ancestor: its `$path` glob is appended to that context's bucket and no
other bucket changes (stated for a leaf node; intermediate non-matching
nodes pass the inherited context through unchanged by the same
resolution rule). -/
theorem c5_inherited_context (cn : Option Str) (q k : Str)
    (c : RuntimeContext) (acc : RuntimePathsMap)
    (h1 : optMeta cn = none) (h2 : optMeta (some k) = none)
    (h3 : q ≠ []) (h4 : c ≠ .Unknown) :
    contextBucket (processEntry (.mk cn (some q) []) (some k) (some c) acc) c =
      contextBucket acc c ++ [q ++ str "/**"] ∧
    ∀ c', c' ≠ c → c' ≠ .Unknown →
      contextBucket (processEntry (.mk cn (some q) []) (some k) (some c) acc) c' =
        contextBucket acc c' := by
  have hres : resolveCtx cn (some k) (some c) = some c := by
    simp [resolveCtx, h1, h2]
  have hpe : processEntry (.mk cn (some q) []) (some k) (some c) acc =
      pushGlob acc (some c) (q ++ str "/**") := by
    rw [processEntry.eq_def]
    simp [h3, hres]
  rw [hpe]
  constructor
  · cases c with
    | Unknown => exact absurd rfl h4
    | Client => simp [pushGlob, contextBucket]
    | Server => simp [pushGlob, contextBucket]
    | Shared => simp [pushGlob, contextBucket]
    | Testing => simp [pushGlob, contextBucket]
  · intro c' hne hnu
    cases c <;> cases c' <;> simp_all [pushGlob, contextBucket]

/-- Claim C5 (witness): a leaf with the unmatched class name `Folder`
under the unmatched key `Sub`, inheriting the Server context, records
its glob in the server bucket. -/
theorem c5_inherited_context_witness :
    (optMeta (some (str "Folder")) = none ∧ optMeta (some (str "Sub")) = none ∧
      (str "src/x") ≠ ([] : Str) ∧ RuntimeContext.Server ≠ .Unknown) ∧
    contextBucket (processEntry (.mk (some (str "Folder")) (some (str "src/x")) [])
        (some (str "Sub")) (some .Server) ⟨[], [], [], []⟩) .Server =
      contextBucket (⟨[], [], [], []⟩ : RuntimePathsMap) .Server ++
        [str "src/x" ++ str "/**"] :=
  ⟨⟨by decide, by decide, by decide, by decide⟩,
    (c5_inherited_context _ _ _ _ _ (by decide) (by decide) (by decide) (by decide)).1⟩

/-- Claim C10: a `$path` that is present but equal to the empty string
contributes nothing: `extractPathsFromEntry` never yields the empty
string for any entry, and `processEntry` on an entry whose `$path` is
the empty string behaves exactly as if the field were absent, because
both guard on the truthiness of `$path`. -/
theorem c10_empty_path_contributes_nothing :
    (∀ e : Entry, ([] : Str) ∉ extractPathsFromEntry e) ∧
    (∀ (cn : Option Str) (cs : List (Str × Entry)) (pk : Option Str)
      (inh : Option RuntimeContext) (acc : RuntimePathsMap),
      processEntry (.mk cn (some []) cs) pk inh acc =
        processEntry (.mk cn none cs) pk inh acc) := by
  refine ⟨extract_no_empty, ?_⟩
  intro cn cs pk inh acc
  rw [processEntry.eq_def]
  conv_rhs => rw [processEntry.eq_def]
  rfl

/-- Claim C10 (witness): the theorem evaluated at a concrete entry with
an empty `$path`. -/
theorem c10_empty_path_witness :
    (([] : Str) ∉ extractPathsFromEntry (.mk none (some []) [])) ∧
    processEntry (.mk none (some []) []) none none ⟨[], [], [], []⟩ =
      processEntry (.mk none none []) none none ⟨[], [], [], []⟩ :=
  ⟨c10_empty_path_contributes_nothing.1 _,
    c10_empty_path_contributes_nothing.2 _ _ _ _ _⟩

end Pendant
